import Mathlib

/-!
Shallow embedding of the TropiX note classifier and label reconciler
(obsidian-tropix).  Strings are modelled as lists of characters; the
JavaScript regular expressions of the source are modelled as explicit
positional scans with the same backtracking behaviour.  All definitions
are executable.
-/

set_option maxRecDepth 1000000

/-- Strings of the modelled program. -/
abbrev Str := List Char

/-- The three note categories of the plugin (type STANoteType in the source). -/
inductive STANoteType where
  | source
  | topic
  | argument
deriving DecidableEq, Repr

/-- The slice of STAPluginSettings the classifier and reconciler read. -/
structure Settings where
  useTagBasedIdentification : Bool
  sourceTags : List Str
  topicTags : List Str
  argumentTags : List Str
  showFileExplorerLabels : Bool

/-- Whitespace test modelling the ASCII part of the JavaScript regex class \s. -/
def isWS (c : Char) : Bool :=
  c = ' ' || c = '\t' || c = '\n' || c = '\x0b' || c = '\x0c' || c = '\r'

/-- Character class [a-zA-Z0-9_-] used by the inline hashtag regex. -/
def isTagChar (c : Char) : Bool :=
  c.isAlpha || c.isDigit || c = '_' || c = '-'

/-- Model of String.prototype.trim: strip whitespace from both ends. -/
def trimStr (s : Str) : Str :=
  ((s.dropWhile isWS).reverse.dropWhile isWS).reverse

/-- Model of tag.replace of the pattern caret-hash with the empty string:
strip a single leading hash character. -/
def stripHash (s : Str) : Str :=
  match s with
  | '#' :: rest => rest
  | _ => s

/-- True when the character is a single quote, a double quote or a hash;
these are the characters removed by the replace calls of the source. -/
def isQuoteHash (c : Char) : Bool :=
  c = '\'' || c = '"' || c = '#'

/-- Tag normalization of identifyTypeByTags: strip one leading hash, delete
every quote character, lowercase.  Used both for note tags and config tags. -/
def normalizeTag (t : Str) : Str :=
  ((stripHash t).filter (fun c => !(c = '\'' || c = '"'))).map Char.toLower

/-- identifyTypeByTags from the source: check argument tags, then source
tags, then topic tags, returning the first category whose configured tag
list has a normalized member among the normalized note tags. -/
def identifyTypeByTags (s : Settings) (noteTags : List Str) : Option STANoteType :=
  let normalizedNoteTags := noteTags.map normalizeTag
  if s.argumentTags.any (fun tag => normalizedNoteTags.contains (normalizeTag tag)) then
    some .argument
  else if s.sourceTags.any (fun tag => normalizedNoteTags.contains (normalizeTag tag)) then
    some .source
  else if s.topicTags.any (fun tag => normalizedNoteTags.contains (normalizeTag tag)) then
    some .topic
  else
    none

/-- Generic model of scanning a string position by position for the first
match of an anchored matcher, as an unanchored JavaScript regex does. -/
def scanFirst (f : Str → Option α) : Str → Option α
  | [] => f []
  | c :: rest =>
    match f (c :: rest) with
    | some r => some r
    | none => scanFirst f rest

/-- The literal marker of the template based strategy. -/
def boldTypePat : Str := "**Type:**".toList

/-- Anchored matcher for the regex of identifyNoteType matching the bold
type marker, optional whitespace, and one of the three case sensitive
category words; yields the lowercased category. -/
def markerAt (s : Str) : Option STANoteType :=
  if boldTypePat.isPrefixOf s then
    let r := (s.drop boldTypePat.length).dropWhile isWS
    if ("Source".toList).isPrefixOf r then some .source
    else if ("Topic".toList).isPrefixOf r then some .topic
    else if ("Argument".toList).isPrefixOf r then some .argument
    else none
  else none

/-- The template based fallback of identifyNoteType: first match of the
bold type marker regex anywhere in the text. -/
def identifyTypeByStructure (content : Str) : Option STANoteType :=
  scanFirst markerAt content

/-- Global scan of the inline hashtag regex: collect every maximal run of
tag characters directly after a hash, resuming after each match.  The fuel
argument only bounds the recursion; every step consumes at least one
character, so fuel equal to the length is enough. -/
def scanHashtagsAux : Nat → Str → List Str
  | 0, _ => []
  | _, [] => []
  | fuel + 1, c :: rest =>
    if c = '#' then
      let run := rest.takeWhile isTagChar
      if run.isEmpty then scanHashtagsAux fuel rest
      else run :: scanHashtagsAux fuel (rest.drop run.length)
    else scanHashtagsAux fuel rest

/-- Entry point of the hashtag scan. -/
def scanHashtags (s : Str) : List Str :=
  scanHashtagsAux s.length s

/-- Index of the first occurrence of a pattern as an infix. -/
def findInfixIdx (pat : Str) : Str → Option Nat
  | [] => if pat.isPrefixOf ([] : Str) then some 0 else none
  | c :: rest =>
    if pat.isPrefixOf (c :: rest) then some 0
    else (findInfixIdx pat rest).map (· + 1)

/-- Largest index of a newline inside a whitespace run, modelling the
backtracking of a greedy whitespace star followed by a mandatory newline. -/
def lastNl : Str → Option Nat
  | [] => none
  | c :: rest =>
    match lastNl rest with
    | some j => some (j + 1)
    | none => if c = '\n' then some 0 else none

/-- Largest index of a character other than a newline. -/
def lastNonNl : Str → Option Nat
  | [] => none
  | c :: rest =>
    match lastNonNl rest with
    | some j => some (j + 1)
    | none => if c ≠ '\n' then some 0 else none

/-- Frontmatter matcher body: given the text after the leading dashes and a
candidate length for the whitespace star, try the largest candidate whose
next character is a newline and where the lazy capture can reach a newline
followed by three dashes; backtrack to smaller candidates otherwise. -/
def fmTry (s : Str) : Nat → Option Str
  | 0 =>
    if (s.drop 0).head? = some '\n' then
      (findInfixIdx ("\n---".toList) (s.drop 1)).map (fun i => (s.drop 1).take i)
    else none
  | a + 1 =>
    match
      (if (s.drop (a + 1)).head? = some '\n' then
        (findInfixIdx ("\n---".toList) (s.drop (a + 2))).map (fun i => (s.drop (a + 2)).take i)
      else none) with
    | some cap => some cap
    | none => fmTry s a

/-- Capture group of the anchored frontmatter regex: text between the
opening dash line and the next line of dashes, or none. -/
def fmCapture (content : Str) : Option Str :=
  if ("---".toList).isPrefixOf content then
    let s := content.drop 3
    fmTry s (s.takeWhile isWS).length
  else none

/-- Anchored matcher for the bracketed tags array regex inside frontmatter:
the literal word tags and a colon, optional whitespace, then a nonempty
bracketed segment; yields the text inside the brackets. -/
def arrayAt (s : Str) : Option Str :=
  if ("tags:".toList).isPrefixOf s then
    match (s.drop 5).dropWhile isWS with
    | '[' :: rest =>
      let inner := rest.takeWhile (fun c => c ≠ ']')
      if inner.isEmpty then none
      else if (rest.drop inner.length).isEmpty then none
      else some inner
    | _ => none
  else none

/-- Matcher for whitespace star followed by a nonempty run of characters
other than newline, with the backtracking the greedy star needs when the
run would otherwise be empty; yields the run and the consumed length. -/
def dashContent (s2 : Str) : Option (Str × Nat) :=
  let w := s2.takeWhile isWS
  match s2.drop w.length with
  | [] =>
    match lastNonNl w with
    | some j =>
      match (w.drop j).head? with
      | some ch => some ([ch], j + 1)
      | none => none
    | none => none
  | c :: rest =>
    let cnt := (c :: rest).takeWhile (fun ch => ch ≠ '\n')
    some (cnt, w.length + cnt.length)

/-- Anchored matcher for one hyphen item: whitespace star, a hyphen, then
the content matcher; yields the content and the consumed length. -/
def itemAt (s : Str) : Option (Str × Nat) :=
  match s.drop (s.takeWhile isWS).length with
  | '-' :: rest2 =>
    (dashContent rest2).map (fun p => (p.1, (s.takeWhile isWS).length + 1 + p.2))
  | _ => none

/-- Global rescan of the captured item block by the item regex, collecting
the content captures of successive matches; fuel bounded as above. -/
def reItemsAux : Nat → Str → List Str
  | 0, _ => []
  | _, [] => []
  | fuel + 1, c :: rest =>
    match itemAt (c :: rest) with
    | some (cnt, k) => cnt :: reItemsAux fuel ((c :: rest).drop k)
    | none => reItemsAux fuel rest

/-- Entry point of the item rescan. -/
def reItems (s : Str) : List Str :=
  reItemsAux s.length s

/-- Length consumed by the greedy repetition of hyphen items, each followed
by an optional newline; fuel bounded as above. -/
def itemsConsumeAux : Nat → Str → Nat
  | 0, _ => 0
  | fuel + 1, s =>
    match itemAt s with
    | some (_, k) =>
      if (s.drop k).head? = some '\n' then (k + 1) + itemsConsumeAux fuel (s.drop (k + 1))
      else k + itemsConsumeAux fuel (s.drop k)
    | none => 0

/-- Entry point of the greedy item repetition length. -/
def itemsConsume (s : Str) : Nat :=
  itemsConsumeAux s.length s

/-- Anchored matcher for the list format tags regex: the literal word tags
and a colon, whitespace star ending at a newline, then the greedy item
repetition; yields the text the repetition consumes. -/
def listAt (s : Str) : Option Str :=
  if ("tags:".toList).isPrefixOf s then
    let s2 := s.drop 5
    let w := s2.takeWhile isWS
    match lastNl w with
    | some i =>
      let body := s2.drop (i + 1)
      some (body.take (itemsConsume body))
    | none => none
  else none

/-- Case insensitive comparison against the word tags. -/
def ciTagsWord (r : Str) : Bool :=
  (r.take 4).map Char.toLower = "tags".toList

/-- Anchored matcher for the tags section heading regex: two hashes,
whitespace star, the word tags case insensitively, whitespace star ending
at a newline, then a possibly empty capture of characters that are neither
newline nor hash. -/
def sectionAt (s : Str) : Option Str :=
  if ("##".toList).isPrefixOf s then
    let r := (s.drop 2).dropWhile isWS
    if ciTagsWord r then
      let s2 := r.drop 4
      let w := s2.takeWhile isWS
      match lastNl w with
      | some i => some ((s2.drop (i + 1)).takeWhile (fun c => c ≠ '\n' && c ≠ '#'))
      | none => none
    else none
  else none

/-- Model of String.prototype.split on a comma, keeping empty pieces. -/
def splitComma : Str → List Str
  | [] => [[]]
  | c :: rest =>
    if c = ',' then [] :: splitComma rest
    else
      match splitComma rest with
      | p :: ps => (c :: p) :: ps
      | [] => [[c]]

/-- Separator class of the split regex of the tags section: commas and
whitespace. -/
def isSectionSep (c : Char) : Bool :=
  c = ',' || isWS c

/-- Maximal runs of non separator characters; the empty pieces a JavaScript
split would also produce are dropped by the length filter of the source.
Fuel bounded as above. -/
def splitTokensAux : Nat → Str → List Str
  | 0, _ => []
  | _, [] => []
  | fuel + 1, c :: rest =>
    if isSectionSep c then splitTokensAux fuel rest
    else
      let run := (c :: rest).takeWhile (fun ch => !isSectionSep ch)
      run :: splitTokensAux fuel ((c :: rest).drop run.length)

/-- Entry point of the separator split. -/
def splitTokens (s : Str) : List Str :=
  splitTokensAux s.length s

/-- First occurrence deduplication, as iterating a JavaScript Set does. -/
def dedupFirst (seen : List Str) : List Str → List Str
  | [] => []
  | a :: l =>
    if a ∈ seen then dedupFirst seen l
    else a :: dedupFirst (a :: seen) l

/-- Inline hashtag component of extractTagsFromContent: every hashtag with
the hash dropped and the rest lowercased. -/
def hashTagList (content : Str) : List Str :=
  (scanHashtags content).map (fun run => run.map Char.toLower)

/-- Frontmatter component of extractTagsFromContent: the array format is
tried first, the list format only when the array regex found nothing; each
entry is trimmed, stripped of quotes and hashes, and lowercased. -/
def yamlTagList (content : Str) : List Str :=
  match fmCapture content with
  | some fm =>
    match scanFirst arrayAt fm with
    | some inner =>
      (splitComma inner).map
        (fun t => ((trimStr t).filter (fun c => !isQuoteHash c)).map Char.toLower)
    | none =>
      match scanFirst listAt fm with
      | some cap =>
        (reItems cap).map
          (fun cnt => ((trimStr cnt).filter (fun c => !isQuoteHash c)).map Char.toLower)
      | none => []
  | none => []

/-- Tags section component of extractTagsFromContent: the captured line is
tokenized on commas and whitespace, each token stripped of one leading
hash, trimmed and lowercased, and empty tokens are dropped. -/
def sectionTagList (content : Str) : List Str :=
  match scanFirst sectionAt content with
  | some cap =>
    ((splitTokens cap).map (fun t => (trimStr (stripHash t)).map Char.toLower)).filter
      (fun t => !t.isEmpty)
  | none => []

/-- extractTagsFromContent from the source: union of inline hashtags,
frontmatter tags in array or list format, and the tags section, each
normalized and lowercased, deduplicated keeping first occurrences. -/
def extractTagsFromContent (content : Str) : List Str :=
  dedupFirst [] (hashTagList content ++ (yamlTagList content ++ sectionTagList content))

/-- identifyNoteType from the source: tag based identification first when
enabled, template marker fallback otherwise. -/
def identifyNoteType (s : Settings) (content : Str) : Option STANoteType :=
  if s.useTagBasedIdentification then
    match identifyTypeByTags s (extractTagsFromContent content) with
    | some t => some t
    | none => identifyTypeByStructure content
  else identifyTypeByStructure content

/-- Warning text for an empty source tag list. -/
def srcEmptyMsg : Str := "Source tags list is empty".toList

/-- Warning text for an empty topic tag list. -/
def topicEmptyMsg : Str := "Topic tags list is empty".toList

/-- Warning text for an empty argument tag list. -/
def argEmptyMsg : Str := "Argument tags list is empty".toList

/-- Warning text for tags shared between categories. -/
def overlapMsg : Str :=
  "Some tags are used for multiple note types - this may cause ambiguous identification".toList

/-- validateTagConfiguration from the source: collect warnings for empty
category tag lists and for case insensitive duplicates among all configured
tags; the configuration is valid exactly when no warning was collected. -/
def validateTagConfiguration (s : Settings) : Bool × List Str :=
  let warnings :=
    (if s.sourceTags.isEmpty then [srcEmptyMsg] else []) ++
    (if s.topicTags.isEmpty then [topicEmptyMsg] else []) ++
    (if s.argumentTags.isEmpty then [argEmptyMsg] else []) ++
    (let allTags := s.sourceTags ++ s.topicTags ++ s.argumentTags
     if (allTags.map (fun t => t.map Char.toLower)).dedup.length ≠ allTags.length
     then [overlapMsg] else [])
  (warnings.length = 0, warnings)

/-- Model of String.prototype.replace with a global literal pattern:
replace every nonoverlapping occurrence, scanning left to right.  The
dollar escapes of JavaScript replacement strings are not modelled; the
claims evaluate this only where the pattern does not occur. -/
def replaceAllSubAux (pat repl : Str) : Nat → Str → Str
  | 0, s => s
  | _, [] => []
  | fuel + 1, c :: rest =>
    if !pat.isEmpty && pat.isPrefixOf (c :: rest) then
      repl ++ replaceAllSubAux pat repl fuel ((c :: rest).drop pat.length)
    else c :: replaceAllSubAux pat repl fuel rest

/-- Entry point of the global replace. -/
def replaceAllSub (pat repl s : Str) : Str :=
  replaceAllSubAux pat repl s.length s

/-- Template variable pattern for the title. -/
def titleVarPat : Str := ['\x7b', '\x7b', 't', 'i', 't', 'l', 'e', '\x7d', '\x7d']

/-- Template variable pattern for the date. -/
def dateVarPat : Str := ['\x7b', '\x7b', 'd', 'a', 't', 'e', '\x7d', '\x7d']

/-- Variable substitution of createNoteFromTemplate: the title pattern is
replaced globally, then the date pattern. -/
def instantiateTemplate (title date tmpl : Str) : Str :=
  replaceAllSub dateVarPat date (replaceAllSub titleVarPat title tmpl)

/-- DEFAULT_TOPIC_TEMPLATE from templates.ts. -/
def DEFAULT_TOPIC_TEMPLATE : Str :=
  ("---\ntags:\n  - \"#research\"\n  - \"#topic\"\n---\n\n> [!example] Sources\n\n> ![tip] Related Arguments\n\n## Overview\n\n## Questions\n\n-\n").toList

/-- DEFAULT_SETTINGS from the source, restricted to the fields the
classifier and reconciler read. -/
def DEFAULT_SETTINGS : Settings :=
  { useTagBasedIdentification := true
    sourceTags := ["source".toList, "research".toList, "reference".toList]
    topicTags := ["topic".toList, "theme".toList, "subject".toList]
    argumentTags := ["argument".toList, "claim".toList, "position".toList]
    showFileExplorerLabels := true }

/-- The volatile classification cache fileLabels, keyed by note path. -/
abbrev Cache := Str → Option STANoteType

/-- Map.set on the cache. -/
def cacheSet (m : Cache) (key : Str) (v : STANoteType) : Cache :=
  fun p => if p = key then some v else m p

/-- Map.delete on the cache. -/
def cacheDelete (m : Cache) (key : Str) : Cache :=
  fun p => if p = key then none else m p

/-- The rename handler registered by initializeFileLabeling: when the old
path has a cached label, delete that entry and store the label under the
new path; otherwise do nothing. -/
def renameHandler (m : Cache) (oldPath newPath : Str) : Cache :=
  match m oldPath with
  | some label => cacheSet (cacheDelete m oldPath) newPath label
  | none => m

/-- State of the label reconciler: the classification cache together with
the externally owned visual tree, modelled per path as absent (none) or as
the list of badge elements currently attached to the title element. -/
structure RecState where
  cache : Cache
  tree : Str → Option (List STANoteType)

/-- addLabelToElement from the source: remove the first existing badge of
the element, then append a fresh badge when a category is known. -/
def addLabelToElement (noteType : Option STANoteType) (badges : List STANoteType) :
    List STANoteType :=
  let afterRemove :=
    match badges with
    | [] => []
    | _ :: rest => rest
  match noteType with
  | some t => afterRemove ++ [t]
  | none => afterRemove

/-- updateVisualLabel from the source: no op when labels are disabled or
when no lookup strategy finds a visual node; otherwise rewrite the badges
of the found node from the cached category. -/
def updateVisualLabel (s : Settings) (st : RecState) (path : Str) : RecState :=
  if s.showFileExplorerLabels then
    match st.tree path with
    | some badges =>
      { st with tree := fun p =>
          if p = path then some (addLabelToElement (st.cache path) badges) else st.tree p }
    | none => st
  else st

/-- updateFileLabel from the source: reclassify the note text, insert or
delete the cache entry accordingly, then attempt a visual sync. -/
def updateFileLabel (s : Settings) (st : RecState) (path content : Str) : RecState :=
  let cache' :=
    match identifyNoteType s content with
    | some t => cacheSet st.cache path t
    | none => cacheDelete st.cache path
  updateVisualLabel s { st with cache := cache' } path

/-- attemptLabelUpdate from createNoteFromTemplate: wait for the given
delay, then check whether the visual node exists; on a miss retry with the
doubled delay while the attempt counter is below five.  The result records
the delays waited and whether the node was found. -/
def attemptLabelUpdate (present : Nat → Bool) (delay attempt : Nat) : List Nat × Bool :=
  if present attempt then ([delay], true)
  else if h : attempt < 5 then
    let r := attemptLabelUpdate present (delay * 2) (attempt + 1)
    (delay :: r.1, r.2)
  else ([delay], false)
termination_by 5 - attempt
decreasing_by omega

/-- A single decoration step of a configured tag: a pure letter case
change, or, for a tag that does not already begin with a hash, a prepended
hash or a surrounding pair of single or double quotes. -/
def isDecorationOf (t' t : Str) : Bool :=
  (t'.map Char.toLower = t.map Char.toLower) ||
  ((t.head? = some '#') = false &&
    (t' = '#' :: t ||
     t' = '\'' :: (t ++ ['\'']) ||
     t' = '"' :: (t ++ ['"'])))

/-! ### Helper lemmas -/

theorem char_toNat_inj {c d : Char} (h : c.toNat = d.toNat) : c = d := by
  unfold Char.toNat at h
  exact Char.eq_of_val_eq (UInt32.toNat.inj h)

theorem toLower_eq_self (c : Char) (h : ¬(65 ≤ c.toNat ∧ c.toNat ≤ 90)) :
    Char.toLower c = c := by
  unfold Char.toLower
  rw [if_neg]
  intro hc
  simp at hc
  omega

theorem ofNat_toNat_upper (n : Nat) (h1 : 65 ≤ n) (h2 : n ≤ 90) :
    (Char.ofNat (n + 32)).toNat = n + 32 := by
  interval_cases n <;> decide

theorem toLower_toNat_upper (c : Char) (h1 : 65 ≤ c.toNat) (h2 : c.toNat ≤ 90) :
    (Char.toLower c).toNat = c.toNat + 32 := by
  unfold Char.toLower
  rw [if_pos (by simp [h1, h2])]
  exact ofNat_toNat_upper c.toNat h1 h2

theorem toLower_eq_special (c x : Char) (hx : x.toNat < 65) :
    Char.toLower c = x ↔ c = x := by
  by_cases hupper : 65 ≤ c.toNat ∧ c.toNat ≤ 90
  · have ht := toLower_toNat_upper c hupper.1 hupper.2
    constructor
    · intro h
      rw [h] at ht
      omega
    · intro h
      subst h
      omega
  · rw [toLower_eq_self c hupper]

theorem toLower_idem (c : Char) : (Char.toLower c).toLower = Char.toLower c := by
  by_cases hupper : 65 ≤ c.toNat ∧ c.toNat ≤ 90
  · have ht := toLower_toNat_upper c hupper.1 hupper.2
    apply toLower_eq_self
    omega
  · rw [toLower_eq_self c hupper]
    exact toLower_eq_self c hupper

theorem map_toLower_idem (r : Str) : (r.map Char.toLower).map Char.toLower = r.map Char.toLower := by
  rw [List.map_map]
  exact List.map_congr_left (fun a _ => toLower_idem a)

/-- Intersection of a configured tag list with a set of note tags, both
sides normalized. -/
def tagIntersects (cfg : List Str) (noteTags : List Str) : Prop :=
  ∃ t ∈ cfg, normalizeTag t ∈ noteTags.map normalizeTag

instance (cfg noteTags : List Str) : Decidable (tagIntersects cfg noteTags) := by
  unfold tagIntersects
  infer_instance

theorem any_contains_iff (cfg noteTags : List Str) :
    (cfg.any fun tag => (noteTags.map normalizeTag).contains (normalizeTag tag)) = true ↔
      tagIntersects cfg noteTags := by
  simp [tagIntersects, List.any_eq_true]

theorem any_eq_decide_tagIntersects (cfg noteTags : List Str) :
    (cfg.any fun tag => (noteTags.map normalizeTag).contains (normalizeTag tag)) =
      decide (tagIntersects cfg noteTags) := by
  rcases hb : (cfg.any fun tag => (noteTags.map normalizeTag).contains (normalizeTag tag)) with _ | _
  · rcases hd : decide (tagIntersects cfg noteTags) with _ | _
    · rfl
    · exfalso
      have hc := (any_contains_iff cfg noteTags).mpr (of_decide_eq_true hd)
      rw [hb] at hc
      cases hc
  · exact (decide_eq_true ((any_contains_iff cfg noteTags).mp hb)).symm

/-! ### Claim C1 -/

/-- Claim C1: for every note tag set and tag configuration,
identifyTypeByTags checks the configured category tag lists in the fixed
priority order Argument, Source, Topic, returning the first category whose
configured tags intersect the normalized note tags and none when no list
intersects; in particular a tag set containing both a configured Source
tag and a configured Argument tag is classified Argument. -/
theorem C1_tag_priority (s : Settings) (noteTags : List Str) :
    (identifyTypeByTags s noteTags =
      if tagIntersects s.argumentTags noteTags then some STANoteType.argument
      else if tagIntersects s.sourceTags noteTags then some STANoteType.source
      else if tagIntersects s.topicTags noteTags then some STANoteType.topic
      else none) ∧
    (∀ a ∈ s.argumentTags, a ∈ noteTags → ∀ b ∈ s.sourceTags, b ∈ noteTags →
      identifyTypeByTags s noteTags = some STANoteType.argument) := by
  constructor
  · simp only [identifyTypeByTags]
    rw [any_eq_decide_tagIntersects, any_eq_decide_tagIntersects,
      any_eq_decide_tagIntersects]
    by_cases hA : tagIntersects s.argumentTags noteTags
    · rw [if_pos (decide_eq_true hA), if_pos hA]
    · rw [if_neg (by simp [hA]), if_neg hA]
      by_cases hS : tagIntersects s.sourceTags noteTags
      · rw [if_pos (decide_eq_true hS), if_pos hS]
      · rw [if_neg (by simp [hS]), if_neg hS]
        by_cases hT : tagIntersects s.topicTags noteTags
        · rw [if_pos (decide_eq_true hT), if_pos hT]
        · rw [if_neg (by simp [hT]), if_neg hT]
  · intro a ha hna b hb hnb
    have hArg : tagIntersects s.argumentTags noteTags :=
      ⟨a, ha, List.mem_map_of_mem _ hna⟩
    simp only [identifyTypeByTags]
    rw [any_eq_decide_tagIntersects, if_pos (decide_eq_true hArg)]

/-- Witness for C1 at a concrete tag set holding a configured source tag
and a configured argument tag. -/
theorem C1_tag_priority_witness :
    identifyTypeByTags DEFAULT_SETTINGS ["claim".toList, "source".toList] =
      some STANoteType.argument :=
  (C1_tag_priority DEFAULT_SETTINGS ["claim".toList, "source".toList]).2
    ("claim".toList) (by decide) (by decide) ("source".toList) (by decide) (by decide)

/-! ### Claim C2 -/

theorem scanFirst_eq_none_iff (f : Str → Option α) (hf : f [] = none) (s : Str) :
    scanFirst f s = none ↔ ∀ i, f (s.drop i) = none := by
  induction s with
  | nil =>
    simp only [scanFirst, List.drop_nil]
    exact ⟨fun h _ => h, fun h => h 0⟩
  | cons c rest ih =>
    simp only [scanFirst]
    cases hfc : f (c :: rest) with
    | some r =>
      constructor
      · intro h
        cases h
      · intro h
        have h0 := h 0
        rw [List.drop_zero] at h0
        rw [h0] at hfc
        cases hfc
    | none =>
      rw [ih]
      constructor
      · intro h i
        cases i with
        | zero => rw [List.drop_zero]; exact hfc
        | succ j => exact h j
      · intro h i
        exact h (i + 1)

theorem scanFirst_eq_some_first (f : Str → Option α) (s : Str) (r : α)
    (h : scanFirst f s = some r) :
    ∃ i, f (s.drop i) = some r ∧ ∀ j, j < i → f (s.drop j) = none := by
  induction s with
  | nil =>
    refine ⟨0, ?_, ?_⟩
    · simpa [scanFirst] using h
    · intro j hj
      omega
  | cons c rest ih =>
    rw [scanFirst] at h
    cases hfc : f (c :: rest) with
    | some r2 =>
      rw [hfc] at h
      refine ⟨0, ?_, ?_⟩
      · rw [List.drop_zero, hfc]
        exact h
      · intro j hj
        omega
    | none =>
      rw [hfc] at h
      obtain ⟨i, hi, hlt⟩ := ih h
      refine ⟨i + 1, hi, ?_⟩
      intro j hj
      cases j with
      | zero => rw [List.drop_zero]; exact hfc
      | succ j2 => exact hlt j2 (by omega)

/-- Settings with the tag strategy disabled and all other fields at the
defaults. -/
def TAG_OFF_SETTINGS : Settings :=
  { DEFAULT_SETTINGS with useTagBasedIdentification := false }

/-- A text containing the plain literal marker the claim describes. -/
def plainTypeTopicText : Str := "Type: Topic".toList

/-- A text containing the bold marker the source actually matches. -/
def boldTypeTopicText : Str := ("A note.\n\n**Type:** Topic\n").toList

/-- Counterexample to claim C2: the text consisting of the literal
`Type: Topic`, classified with the tag strategy disabled, yields none
rather than Topic, because the source regex requires the bold marker
`**Type:**` and matches the category word case sensitively. -/
theorem C2_counterexample :
    ("Type: Topic".toList) <:+: plainTypeTopicText ∧
      identifyNoteType TAG_OFF_SETTINGS plainTypeTopicText = none ∧
      identifyTypeByStructure plainTypeTopicText = none ∧
      identifyTypeByStructure (("**Type:** topic").toList) = none := by
  refine ⟨List.infix_refl _, ?_, ?_, ?_⟩ <;> decide

/-- Claim C2 (amended): the structural classifier looks for the literal
marker `**Type:**` followed by optional whitespace and one of the exact
case words Source, Topic or Argument; it returns the lowercased category
of the first position carrying such a marker and none when no position
does; in particular, for text containing `**Type:** Topic` with the tag
strategy disabled, classify returns Topic. -/
theorem C2_structural_marker :
    (∀ content : Str,
      (identifyTypeByStructure content = none ↔ ∀ i, markerAt (content.drop i) = none) ∧
      (∀ t, identifyTypeByStructure content = some t →
        ∃ i, markerAt (content.drop i) = some t ∧ ∀ j, j < i → markerAt (content.drop j) = none)) ∧
    identifyNoteType TAG_OFF_SETTINGS boldTypeTopicText = some STANoteType.topic := by
  constructor
  · intro content
    constructor
    · exact scanFirst_eq_none_iff markerAt (by decide) content
    · intro t
      exact scanFirst_eq_some_first markerAt content t
  · decide

/-- Witness for the amended C2 at the bold marker text. -/
theorem C2_structural_marker_witness :
    ∃ i, markerAt (boldTypeTopicText.drop i) = some STANoteType.topic ∧
      ∀ j, j < i → markerAt (boldTypeTopicText.drop j) = none :=
  (C2_structural_marker.1 boldTypeTopicText).2 STANoteType.topic (by decide)

/-! ### Claim C3 -/

/-- Claim C3: identifyNoteType composes the strategies as described: with
the tag strategy enabled it returns the tag based result when that result
is not none and otherwise the structural result; with the tag strategy
disabled it returns the structural result and ignores the tag
configuration entirely. -/
theorem C3_strategy_composition (s : Settings) (content : Str) :
    (s.useTagBasedIdentification = true →
      ∀ t, identifyTypeByTags s (extractTagsFromContent content) = some t →
        identifyNoteType s content = some t) ∧
    (s.useTagBasedIdentification = true →
      identifyTypeByTags s (extractTagsFromContent content) = none →
        identifyNoteType s content = identifyTypeByStructure content) ∧
    (s.useTagBasedIdentification = false →
      identifyNoteType s content = identifyTypeByStructure content) ∧
    (∀ s' : Settings, s.useTagBasedIdentification = false →
      s'.useTagBasedIdentification = false →
        identifyNoteType s content = identifyNoteType s' content) := by
  refine ⟨?_, ?_, ?_, ?_⟩
  · intro hu t ht
    simp [identifyNoteType, hu, ht]
  · intro hu ht
    simp [identifyNoteType, hu, ht]
  · intro hu
    simp [identifyNoteType, hu]
  · intro s' hu hu'
    simp [identifyNoteType, hu, hu']

/-- Witness for C3 at the bold marker text with the tag strategy
disabled. -/
theorem C3_strategy_composition_witness :
    identifyNoteType TAG_OFF_SETTINGS boldTypeTopicText =
      identifyTypeByStructure boldTypeTopicText :=
  (C3_strategy_composition TAG_OFF_SETTINGS boldTypeTopicText).2.2.1 (by decide)

/-! ### Claim C4 -/

theorem replaceAllSubAux_of_not_infix (pat repl : Str) (hpat : ¬pat.isEmpty = true) :
    ∀ (fuel : Nat) (s : Str), ¬pat <:+: s → replaceAllSubAux pat repl fuel s = s := by
  intro fuel
  induction fuel with
  | zero =>
    intro s _
    cases s <;> rfl
  | succ n ih =>
    intro s hinf
    cases s with
    | nil => rfl
    | cons c rest =>
      rw [replaceAllSubAux]
      rw [if_neg]
      · rw [ih rest]
        intro hinfr
        exact hinf (List.infix_cons hinfr)
      · intro hcond
        rw [Bool.and_eq_true] at hcond
        exact hinf (List.IsPrefix.isInfix (List.isPrefixOf_iff_prefix.mp hcond.2))

theorem replaceAllSub_of_not_infix (pat repl s : Str) (hpat : ¬pat.isEmpty = true)
    (h : ¬pat <:+: s) : replaceAllSub pat repl s = s :=
  replaceAllSubAux_of_not_infix pat repl hpat s.length s h

/-- Claim C4: under the default settings, the text obtained by
instantiating the default Topic template classifies as Source rather than
Topic, because the frontmatter hashtag research is a configured source tag
and Source precedes Topic in the priority order. -/
theorem C4_topic_template_classifies_source (title date : Str) :
    identifyNoteType DEFAULT_SETTINGS
        (instantiateTemplate title date DEFAULT_TOPIC_TEMPLATE) =
      some STANoteType.source ∧
    identifyNoteType DEFAULT_SETTINGS
        (instantiateTemplate title date DEFAULT_TOPIC_TEMPLATE) ≠
      some STANoteType.topic := by
  have h1 : replaceAllSub titleVarPat title DEFAULT_TOPIC_TEMPLATE = DEFAULT_TOPIC_TEMPLATE :=
    replaceAllSub_of_not_infix _ _ _ (by decide) (by decide)
  have h2 : instantiateTemplate title date DEFAULT_TOPIC_TEMPLATE = DEFAULT_TOPIC_TEMPLATE := by
    rw [instantiateTemplate, h1]
    exact replaceAllSub_of_not_infix _ _ _ (by decide) (by decide)
  rw [h2]
  constructor
  · decide
  · decide

/-- Witness for C4 at the empty title and date. -/
theorem C4_topic_template_classifies_source_witness :
    identifyNoteType DEFAULT_SETTINGS
        (instantiateTemplate [] [] DEFAULT_TOPIC_TEMPLATE) =
      some STANoteType.source :=
  (C4_topic_template_classifies_source [] []).1

/-! ### Claim C5 -/

theorem dedupFirst_mem {x : Str} :
    ∀ (seen l : List Str), x ∈ dedupFirst seen l → x ∈ l := by
  intro seen l
  induction l generalizing seen with
  | nil =>
    intro h
    cases h
  | cons a t ih =>
    intro h
    rw [dedupFirst] at h
    by_cases hmem : a ∈ seen
    · rw [if_pos hmem] at h
      exact List.mem_cons_of_mem a (ih seen h)
    · rw [if_neg hmem] at h
      rcases List.mem_cons.mp h with h1 | h2
      · exact h1 ▸ List.mem_cons_self a t
      · exact List.mem_cons_of_mem a (ih (a :: seen) h2)

theorem dedupFirst_not_seen {x : Str} :
    ∀ (seen l : List Str), x ∈ dedupFirst seen l → x ∉ seen := by
  intro seen l
  induction l generalizing seen with
  | nil =>
    intro h
    cases h
  | cons a t ih =>
    intro h
    rw [dedupFirst] at h
    by_cases hmem : a ∈ seen
    · rw [if_pos hmem] at h
      exact ih seen h
    · rw [if_neg hmem] at h
      rcases List.mem_cons.mp h with h1 | h2
      · exact h1 ▸ hmem
      · intro hx
        exact ih (a :: seen) h2 (List.mem_cons_of_mem a hx)

theorem dedupFirst_nodup : ∀ (seen l : List Str), (dedupFirst seen l).Nodup := by
  intro seen l
  induction l generalizing seen with
  | nil =>
    exact List.nodup_nil
  | cons a t ih =>
    rw [dedupFirst]
    by_cases hmem : a ∈ seen
    · rw [if_pos hmem]
      exact ih seen
    · rw [if_neg hmem]
      rw [List.nodup_cons]
      refine ⟨?_, ih (a :: seen)⟩
      intro hx
      exact dedupFirst_not_seen (a :: seen) t hx (List.mem_cons_self a seen)

theorem mem_components_lower (content tag : Str)
    (h : tag ∈ hashTagList content ++ (yamlTagList content ++ sectionTagList content)) :
    tag.map Char.toLower = tag := by
  rcases List.mem_append.mp h with hh | hys
  · obtain ⟨r, _, rfl⟩ := List.mem_map.mp (by simpa [hashTagList] using hh)
    exact map_toLower_idem r
  · rcases List.mem_append.mp hys with hy | hs
    · unfold yamlTagList at hy
      split at hy
      · split at hy
        · obtain ⟨r, _, rfl⟩ := List.mem_map.mp hy
          exact map_toLower_idem _
        · split at hy
          · obtain ⟨r, _, rfl⟩ := List.mem_map.mp hy
            exact map_toLower_idem _
          · cases hy
      · cases hy
    · unfold sectionTagList at hs
      split at hs
      · obtain ⟨r, _, rfl⟩ := List.mem_map.mp (List.mem_filter.mp hs).1
        exact map_toLower_idem _
      · cases hs

/-- Claim C5: extractTagsFromContent always returns a duplicate free list
whose members are all entirely lowercase (each tag is a fixed point of
lowercasing), and it is deterministic: identical texts yield identical
sets under order independent equality. -/
theorem C5_extractTags_set (content : Str) :
    (extractTagsFromContent content).Nodup ∧
    (∀ tag ∈ extractTagsFromContent content, tag.map Char.toLower = tag) ∧
    (∀ c₁ c₂ : Str, c₁ = c₂ → ∀ x : Str,
      x ∈ extractTagsFromContent c₁ ↔ x ∈ extractTagsFromContent c₂) := by
  refine ⟨dedupFirst_nodup _ _, ?_, ?_⟩
  · intro tag htag
    exact mem_components_lower content tag (dedupFirst_mem _ _ htag)
  · intro c₁ c₂ he x
    rw [he]

/-- Witness for C5 at the default topic template text. -/
theorem C5_extractTags_set_witness :
    ("research".toList).map Char.toLower = "research".toList :=
  (C5_extractTags_set DEFAULT_TOPIC_TEMPLATE).2.1 ("research".toList) (by decide)

/-! ### Claim C6 -/

theorem validate_mem_iff (s : Settings) (m : Str) :
    m ∈ (validateTagConfiguration s).2 ↔
      ((m = srcEmptyMsg ∧ s.sourceTags.isEmpty = true) ∨
       (m = topicEmptyMsg ∧ s.topicTags.isEmpty = true) ∨
       (m = argEmptyMsg ∧ s.argumentTags.isEmpty = true) ∨
       (m = overlapMsg ∧
         ((s.sourceTags ++ s.topicTags ++ s.argumentTags).map
            (fun t => t.map Char.toLower)).dedup.length ≠
           (s.sourceTags ++ s.topicTags ++ s.argumentTags).length)) := by
  simp only [validateTagConfiguration, List.mem_append]
  split_ifs with h1 h2 h3 h4 <;> (try simp_all) <;> (try tauto)

theorem nodup_of_dedup_length {l : List Str} (h : l.dedup.length = l.length) :
    l.Nodup := by
  have he : l.dedup = l := (List.dedup_sublist l).eq_of_length h
  have := List.nodup_dedup l
  rwa [he] at this

/-- Claim C6: validateTagConfiguration emits exactly one warning per empty
category tag list, emits the overlap warning whenever some tag appears
case insensitively in the lists of two different categories, and the
configuration is never rejected: tag classification still yields a result
under an overlapping configuration, following the priority order. -/
theorem C6_validate_warnings (s : Settings) :
    (srcEmptyMsg ∈ (validateTagConfiguration s).2 ↔ s.sourceTags = []) ∧
    (topicEmptyMsg ∈ (validateTagConfiguration s).2 ↔ s.topicTags = []) ∧
    (argEmptyMsg ∈ (validateTagConfiguration s).2 ↔ s.argumentTags = []) ∧
    ((∃ x : Str,
        (x ∈ s.sourceTags.map (fun t => t.map Char.toLower) ∧
          x ∈ s.topicTags.map (fun t => t.map Char.toLower)) ∨
        (x ∈ s.sourceTags.map (fun t => t.map Char.toLower) ∧
          x ∈ s.argumentTags.map (fun t => t.map Char.toLower)) ∨
        (x ∈ s.topicTags.map (fun t => t.map Char.toLower) ∧
          x ∈ s.argumentTags.map (fun t => t.map Char.toLower))) →
      overlapMsg ∈ (validateTagConfiguration s).2) ∧
    (∀ t, t ∈ s.sourceTags → t ∈ s.argumentTags →
      ∀ noteTags : List Str, normalizeTag t ∈ noteTags.map normalizeTag →
        identifyTypeByTags s noteTags = some STANoteType.argument) := by
  refine ⟨?_, ?_, ?_, ?_, ?_⟩
  · rw [validate_mem_iff]
    simp [show ¬srcEmptyMsg = topicEmptyMsg from by decide,
      show ¬srcEmptyMsg = argEmptyMsg from by decide,
      show ¬srcEmptyMsg = overlapMsg from by decide, List.isEmpty_iff]
  · rw [validate_mem_iff]
    simp [show ¬topicEmptyMsg = srcEmptyMsg from by decide,
      show ¬topicEmptyMsg = argEmptyMsg from by decide,
      show ¬topicEmptyMsg = overlapMsg from by decide, List.isEmpty_iff]
  · rw [validate_mem_iff]
    simp [show ¬argEmptyMsg = srcEmptyMsg from by decide,
      show ¬argEmptyMsg = topicEmptyMsg from by decide,
      show ¬argEmptyMsg = overlapMsg from by decide, List.isEmpty_iff]
  · intro hex
    rw [validate_mem_iff]
    refine Or.inr (Or.inr (Or.inr ⟨rfl, ?_⟩))
    intro hlen
    have hlen2 :
        ((s.sourceTags ++ s.topicTags ++ s.argumentTags).map
          (fun t => t.map Char.toLower)).dedup.length =
          ((s.sourceTags ++ s.topicTags ++ s.argumentTags).map
            (fun t => t.map Char.toLower)).length := by
      rw [List.length_map]
      exact hlen
    have hnodup := nodup_of_dedup_length hlen2
    rw [List.map_append, List.map_append] at hnodup
    have hd1 := List.disjoint_of_nodup_append hnodup
    have hST := List.disjoint_of_nodup_append (hnodup.of_append_left)
    obtain ⟨x, hx⟩ := hex
    rcases hx with ⟨hs1, ht1⟩ | ⟨hs1, ha1⟩ | ⟨ht1, ha1⟩
    · exact hST hs1 ht1
    · exact hd1 (List.mem_append_left _ hs1) ha1
    · exact hd1 (List.mem_append_right _ ht1) ha1
  · intro t hts hta noteTags hmem
    have hArg : tagIntersects s.argumentTags noteTags := ⟨t, hta, hmem⟩
    simp only [identifyTypeByTags]
    rw [any_eq_decide_tagIntersects, if_pos (decide_eq_true hArg)]

/-- Settings whose topic list repeats a source tag with different case. -/
def OVERLAP_SETTINGS : Settings :=
  { DEFAULT_SETTINGS with topicTags := ["Source".toList, "theme".toList] }

/-- Witness for C6 at a configuration sharing the tag source between the
source and topic categories. -/
theorem C6_validate_warnings_witness :
    overlapMsg ∈ (validateTagConfiguration OVERLAP_SETTINGS).2 :=
  (C6_validate_warnings OVERLAP_SETTINGS).2.2.2.1
    ⟨"source".toList, Or.inl ⟨by decide, by decide⟩⟩

/-! ### Claim C7 -/

/-- Claim C7: renaming a note whose old path has a cache entry removes the
entry under the old key and stores the same category under the new key,
leaving every other entry unchanged. -/
theorem C7_rename_migrates_entry (m : Cache) (oldPath newPath : Str)
    (hne : oldPath ≠ newPath) (c : STANoteType) (h : m oldPath = some c) :
    renameHandler m oldPath newPath newPath = some c ∧
    renameHandler m oldPath newPath oldPath = none ∧
    (∀ p : Str, p ≠ oldPath → p ≠ newPath →
      renameHandler m oldPath newPath p = m p) := by
  unfold renameHandler
  rw [h]
  refine ⟨?_, ?_, ?_⟩
  · simp [cacheSet]
  · simp [cacheSet, cacheDelete, hne, Ne.symm hne]
  · intro p hpo hpn
    simp [cacheSet, cacheDelete, hpo, hpn]

/-- Witness for C7 at a one entry cache renamed to a fresh path. -/
theorem C7_rename_migrates_entry_witness :
    renameHandler
        (fun p => if p = ("Topics/Old.md").toList then some STANoteType.topic else none)
        (("Topics/Old.md").toList) (("Topics/New.md").toList) (("Topics/New.md").toList) =
      some STANoteType.topic :=
  (C7_rename_migrates_entry
      (fun p => if p = ("Topics/Old.md").toList then some STANoteType.topic else none)
      (("Topics/Old.md").toList) (("Topics/New.md").toList)
      (by decide) STANoteType.topic (by simp)).1

/-! ### Claim C8 -/

theorem updateVisualLabel_absent (s : Settings) (st : RecState) (path : Str)
    (h : st.tree path = none) : updateVisualLabel s st path = st := by
  unfold updateVisualLabel
  split_ifs with hshow
  · rw [h]
  · rfl

/-- Claim C8: with the visual node absent, updateFileLabel still updates
the classification cache (entry stored when a category was identified,
deleted when not, all other entries unchanged) and leaves the visual tree
untouched instead of failing; and the badge rewriting of addLabelToElement
keeps at most one badge per node, so that a sync after the node appears,
even done twice in a row, leaves exactly one badge. -/
theorem C8_reconciler_absent_node (s : Settings) (st : RecState) (path content : Str) :
    (st.tree path = none →
      ((∀ t, identifyNoteType s content = some t →
          (updateFileLabel s st path content).cache path = some t) ∧
        (identifyNoteType s content = none →
          (updateFileLabel s st path content).cache path = none) ∧
        (∀ p : Str, p ≠ path →
          (updateFileLabel s st path content).cache p = st.cache p) ∧
        (updateFileLabel s st path content).tree = st.tree)) ∧
    (∀ (badges : List STANoteType) (t₁ t₂ : STANoteType), badges.length ≤ 1 →
      (addLabelToElement (some t₁) badges).length = 1 ∧
      (addLabelToElement (some t₂) (addLabelToElement (some t₁) badges)).length = 1) ∧
    (∀ (badges : List STANoteType) (t : STANoteType),
      s.showFileExplorerLabels = true → st.tree path = some badges →
      badges.length ≤ 1 → st.cache path = some t →
      ((updateVisualLabel s (updateVisualLabel s st path) path).tree path).map
          List.length = some 1) := by
  refine ⟨?_, ?_, ?_⟩
  · intro habsent
    have hfl : updateFileLabel s st path content =
        { cache :=
            match identifyNoteType s content with
            | some t => cacheSet st.cache path t
            | none => cacheDelete st.cache path,
          tree := st.tree } := by
      unfold updateFileLabel
      exact updateVisualLabel_absent s _ path habsent
    refine ⟨?_, ?_, ?_, ?_⟩
    · intro t ht
      rw [hfl]
      simp [ht, cacheSet]
    · intro ht
      rw [hfl]
      simp [ht, cacheDelete]
    · intro p hp
      rw [hfl]
      cases hid : identifyNoteType s content <;> simp [hid, cacheSet, cacheDelete, hp]
    · rw [hfl]
  · intro badges t₁ t₂ hlen
    rcases badges with _ | ⟨b, _ | ⟨b2, bs⟩⟩
    · constructor <;> rfl
    · constructor <;> rfl
    · simp at hlen
  · intro badges t hshow htreep hlen hcache
    have h1 : updateVisualLabel s st path =
        { st with tree := fun p =>
            if p = path then some (addLabelToElement (st.cache path) badges)
            else st.tree p } := by
      unfold updateVisualLabel
      rw [if_pos hshow, htreep]
    rw [h1]
    unfold updateVisualLabel
    rw [if_pos hshow]
    simp only [if_pos rfl]
    rw [hcache]
    rcases badges with _ | ⟨b, _ | ⟨b2, bs⟩⟩
    · simp [addLabelToElement]
    · simp [addLabelToElement]
    · simp at hlen

/-- Witness for C8 at a one note state whose visual node is absent. -/
theorem C8_reconciler_absent_node_witness :
    (updateFileLabel DEFAULT_SETTINGS
        { cache := fun _ => none, tree := fun _ => none }
        (("Topics/T.md").toList) DEFAULT_TOPIC_TEMPLATE).cache (("Topics/T.md").toList) =
      some STANoteType.source :=
  ((C8_reconciler_absent_node DEFAULT_SETTINGS
      { cache := fun _ => none, tree := fun _ => none }
      (("Topics/T.md").toList) DEFAULT_TOPIC_TEMPLATE).1 rfl).1
    STANoteType.source (by decide)

/-! ### Claim C9 -/

theorem attemptLabelUpdate_spec (present : Nat → Bool) :
    ∀ (n delay attempt : Nat), 5 - attempt = n → 1 ≤ attempt → attempt ≤ 5 →
      (attemptLabelUpdate present delay attempt).1.length ≤ n + 1 ∧
      (∀ i, i < (attemptLabelUpdate present delay attempt).1.length →
        (attemptLabelUpdate present delay attempt).1.get? i = some (delay * 2 ^ i)) ∧
      ((attemptLabelUpdate present delay attempt).2 = false ↔
        ∀ k, attempt ≤ k → k ≤ 5 → present k = false) := by
  intro n
  induction n with
  | zero =>
    intro delay attempt hn h1 h5
    have ha : attempt = 5 := by omega
    subst ha
    rw [attemptLabelUpdate]
    cases hp : present 5 with
    | true =>
      simp only [if_pos rfl]
      refine ⟨by simp, ?_, ?_⟩
      · intro i hi
        simp at hi
        subst hi
        simp
      · constructor
        · intro h
          cases h
        · intro h
          rw [h 5 (by omega) (by omega)] at hp
          cases hp
    | false =>
      rw [if_neg (by simp [hp])]
      rw [dif_neg (by omega)]
      refine ⟨by simp, ?_, ?_⟩
      · intro i hi
        simp at hi
        subst hi
        simp
      · constructor
        · intro _ k hk1 hk2
          have : k = 5 := by omega
          subst this
          exact hp
        · intro _
          rfl
  | succ n ih =>
    intro delay attempt hn h1 h5
    have hlt : attempt < 5 := by omega
    rw [attemptLabelUpdate]
    cases hp : present attempt with
    | true =>
      simp only [if_pos rfl]
      refine ⟨by simp, ?_, ?_⟩
      · intro i hi
        simp at hi
        subst hi
        simp
      · constructor
        · intro h
          cases h
        · intro h
          rw [h attempt (by omega) (by omega)] at hp
          cases hp
    | false =>
      rw [if_neg (by simp [hp])]
      rw [dif_pos hlt]
      obtain ⟨ihlen, ihget, ihfound⟩ :=
        ih (delay * 2) (attempt + 1) (by omega) (by omega) (by omega)
      refine ⟨?_, ?_, ?_⟩
      · simp only [List.length_cons]
        omega
      · intro i hi
        cases i with
        | zero =>
          simp
        | succ j =>
          simp only [List.length_cons] at hi
          have hj : j < (attemptLabelUpdate present (delay * 2) (attempt + 1)).1.length := by
            omega
          simp only [List.get?_cons_succ]
          rw [ihget j hj]
          congr 1
          ring
      · constructor
        · intro h k hk1 hk5
          by_cases hke : k = attempt
          · subst hke
            exact hp
          · exact ihfound.mp h k (by omega) hk5
        · intro h
          exact ihfound.mpr (fun k hk1 hk5 => h k (by omega) hk5)

/-- Claim C9: the post creation visual sync retry chain always terminates
within five attempts, the waited delays grow geometrically with each delay
double the previous one starting from five hundred, and exhausting the
bound without finding the visual node merely reports failure: the chain
returns not found exactly when the node was absent at every attempt. -/
theorem C9_retry_backoff (present : Nat → Bool) :
    (attemptLabelUpdate present 500 1).1.length ≤ 5 ∧
    (∀ i, i < (attemptLabelUpdate present 500 1).1.length →
      (attemptLabelUpdate present 500 1).1.get? i = some (500 * 2 ^ i)) ∧
    ((attemptLabelUpdate present 500 1).2 = false ↔
      ∀ k, 1 ≤ k → k ≤ 5 → present k = false) := by
  obtain ⟨hlen, hget, hfound⟩ :=
    attemptLabelUpdate_spec present 4 500 1 (by omega) (by omega) (by omega)
  exact ⟨by omega, hget, hfound⟩

/-- Witness for C9 with the visual node never appearing: the second delay
is double the first. -/
theorem C9_retry_backoff_witness :
    (attemptLabelUpdate (fun _ => false) 500 1).1.get? 1 = some (500 * 2 ^ 1) :=
  (C9_retry_backoff (fun _ => false)).2.1 1 (by simp [attemptLabelUpdate])

/-! ### Claim C10 -/

/-- A configuration whose argument tag already begins with a hash. -/
def HASH_ARG_SETTINGS : Settings :=
  { useTagBasedIdentification := true
    sourceTags := []
    topicTags := []
    argumentTags := ["#source".toList]
    showFileExplorerLabels := true }

/-- The same configuration after adding one more leading hash to the
configured argument tag. -/
def HASH_ARG_SETTINGS2 : Settings :=
  { HASH_ARG_SETTINGS with argumentTags := ["##source".toList] }

/-- Counterexample to claim C10: the configured tag normalization strips
only one leading hash, and does so before removing quotes, so adding a
leading hash to the configured tag `#source` changes the classification of
the note tag set containing source from Argument to none. -/
theorem C10_counterexample :
    identifyTypeByTags HASH_ARG_SETTINGS ["source".toList] = some STANoteType.argument ∧
      identifyTypeByTags HASH_ARG_SETTINGS2 ["source".toList] = none := by
  constructor <;> decide

theorem stripHash_cons_ne (c : Char) (rest : Str) (h : ¬c = '#') :
    stripHash (c :: rest) = c :: rest := by
  unfold stripHash
  split
  · rename_i heq
    injection heq with h1 _
    exact absurd h1 h
  · rfl

theorem filter_map_lower_congr :
    ∀ (a b : Str), a.map Char.toLower = b.map Char.toLower →
      ((a.filter (fun c => !(c = '\'' || c = '"'))).map Char.toLower =
        (b.filter (fun c => !(c = '\'' || c = '"'))).map Char.toLower) := by
  intro a
  induction a with
  | nil =>
    intro b hb
    have : b = [] := by
      cases b with
      | nil => rfl
      | cons y ys => cases hb
    subst this
    rfl
  | cons x xs ih =>
    intro b hb
    cases b with
    | nil => cases hb
    | cons y ys =>
      injection hb with hxy hrest
      have hq1 : (x = '\'') ↔ (y = '\'') := by
        rw [← toLower_eq_special x '\'' (by decide), ← toLower_eq_special y '\'' (by decide),
          hxy]
      have hq2 : (x = '"') ↔ (y = '"') := by
        rw [← toLower_eq_special x '"' (by decide), ← toLower_eq_special y '"' (by decide),
          hxy]
      simp only [List.filter_cons]
      by_cases hx : x = '\'' ∨ x = '"'
      · have hy : y = '\'' ∨ y = '"' := by tauto
        rw [if_neg (by simp; tauto), if_neg (by simp; tauto)]
        exact ih ys hrest
      · have hy : ¬(y = '\'' ∨ y = '"') := by tauto
        rw [if_pos (by simp; tauto), if_pos (by simp; tauto)]
        simp only [List.map_cons]
        rw [hxy, ih ys hrest]

theorem normalizeTag_congr_lower (a b : Str)
    (h : a.map Char.toLower = b.map Char.toLower) : normalizeTag a = normalizeTag b := by
  cases a with
  | nil =>
    cases b with
    | nil => rfl
    | cons y ys => cases h
  | cons x xs =>
    cases b with
    | nil => cases h
    | cons y ys =>
      injection h with hxy hrest
      have hhash : (x = '#') ↔ (y = '#') := by
        rw [← toLower_eq_special x '#' (by decide), ← toLower_eq_special y '#' (by decide),
          hxy]
      unfold normalizeTag
      by_cases hx : x = '#'
      · have hy : y = '#' := hhash.mp hx
        subst hx
        subst hy
        simp only [stripHash]
        exact filter_map_lower_congr xs ys hrest
      · have hy : ¬y = '#' := fun hc => hx (hhash.mpr hc)
        rw [stripHash_cons_ne x xs hx, stripHash_cons_ne y ys hy]
        exact filter_map_lower_congr (x :: xs) (y :: ys) (by simp [hxy, hrest])

theorem head_ne_hash_stripHash (t : Str) (h : ¬t.head? = some '#') :
    stripHash t = t := by
  cases t with
  | nil => rfl
  | cons c rest =>
    apply stripHash_cons_ne
    intro hc
    subst hc
    exact h rfl

theorem normalizeTag_of_decoration (t t' : Str) (h : isDecorationOf t' t = true) :
    normalizeTag t' = normalizeTag t := by
  unfold isDecorationOf at h
  rcases Bool.or_eq_true _ _ |>.mp h with h1 | h2
  · exact normalizeTag_congr_lower t' t (of_decide_eq_true h1)
  · rw [Bool.and_eq_true] at h2
    obtain ⟨hhead, hform⟩ := h2
    have hh : ¬t.head? = some '#' := by
      intro hc
      simp [hc] at hhead
    rcases Bool.or_eq_true _ _ |>.mp hform with hf | hf2
    · rcases Bool.or_eq_true _ _ |>.mp hf with hf1 | hf1
      · have ht' : t' = '#' :: t := of_decide_eq_true hf1
        subst ht'
        unfold normalizeTag
        rw [head_ne_hash_stripHash t hh]
        rw [show stripHash ('#' :: t) = t from rfl]
      · have ht' : t' = '\'' :: (t ++ ['\'']) := of_decide_eq_true hf1
        subst ht'
        unfold normalizeTag
        rw [stripHash_cons_ne _ _ (by decide), head_ne_hash_stripHash t hh]
        simp [List.filter_append]
    · have ht' : t' = '"' :: (t ++ ['"']) := of_decide_eq_true hf2
      subst ht'
      unfold normalizeTag
      rw [stripHash_cons_ne _ _ (by decide), head_ne_hash_stripHash t hh]
      simp [List.filter_append]

theorem map_normalizeTag_of_decorations :
    ∀ (l l' : List Str), l.length = l'.length →
      (∀ p ∈ l.zip l', isDecorationOf p.2 p.1 = true) →
      l'.map normalizeTag = l.map normalizeTag := by
  intro l
  induction l with
  | nil =>
    intro l' hlen _
    cases l' with
    | nil => rfl
    | cons b bs => cases hlen
  | cons a as ih =>
    intro l' hlen hp
    cases l' with
    | nil => cases hlen
    | cons b bs =>
      simp only [List.map_cons]
      rw [normalizeTag_of_decoration a b (hp (a, b) (by simp [List.zip_cons_cons]))]
      rw [ih bs (by simpa using hlen)
        (fun p hmem => hp p (by simp [List.zip_cons_cons, hmem]))]

theorem any_norm_eq (cfg M : List Str) :
    (cfg.any fun tag => M.contains (normalizeTag tag)) =
      ((cfg.map normalizeTag).any fun x => M.contains x) := by
  induction cfg with
  | nil => rfl
  | cons a as ih =>
    simp only [List.map_cons, List.any_cons, ih, List.any_map]

/-- Claim C10 (amended): identifyTypeByTags is invariant under decorating
configured tags by letter case changes, and under adding a leading hash or
a surrounding pair of quotes to any configured tag that does not already
begin with a hash; a decoration of a tag already beginning with a hash can
change the result, as the counterexample shows. -/
theorem C10_decoration_invariance (noteTags : List Str) (b₁ b₂ : Bool)
    (src top arg src' top' arg' : List Str)
    (hsl : src.length = src'.length)
    (hs : ∀ p ∈ src.zip src', isDecorationOf p.2 p.1 = true)
    (htl : top.length = top'.length)
    (ht : ∀ p ∈ top.zip top', isDecorationOf p.2 p.1 = true)
    (hal : arg.length = arg'.length)
    (ha : ∀ p ∈ arg.zip arg', isDecorationOf p.2 p.1 = true) :
    identifyTypeByTags ⟨b₁, src', top', arg', b₂⟩ noteTags =
      identifyTypeByTags ⟨b₁, src, top, arg, b₂⟩ noteTags := by
  have hS := map_normalizeTag_of_decorations src src' hsl hs
  have hT := map_normalizeTag_of_decorations top top' htl ht
  have hA := map_normalizeTag_of_decorations arg arg' hal ha
  simp only [identifyTypeByTags]
  rw [any_norm_eq, any_norm_eq, any_norm_eq, any_norm_eq, any_norm_eq, any_norm_eq]
  rw [hS, hT, hA]

/-- Witness for the amended C10: hash prefixing, quoting and case changes
of hash free configured tags leave the classification unchanged. -/
theorem C10_decoration_invariance_witness :
    identifyTypeByTags
        ⟨true, ["#source".toList], ["TOPIC".toList], ["\"claim\"".toList], true⟩
        ["topic".toList] =
      identifyTypeByTags
        ⟨true, ["source".toList], ["topic".toList], ["claim".toList], true⟩
        ["topic".toList] :=
  C10_decoration_invariance ["topic".toList] true true
    (["source".toList]) (["topic".toList]) (["claim".toList])
    (["#source".toList]) (["TOPIC".toList]) (["\"claim\"".toList])
    (by decide) (by decide) (by decide) (by decide) (by decide) (by decide)
